import Mathlib

/-
Verification of the kv-golang distributed key-value store core.

The Go source is shallowly embedded below. Go maps are modelled as
association lists with unique keys (a Go map never holds two bindings for
one key); map iteration order is arbitrary in Go, and every iterating
operation embedded here aggregates order-insensitively, so the list order
is a faithful representative. Go int is modelled as Int, machine uint32
values as Nat. Pointer fields that may be nil are modelled as Option.
Code paths that panic in Go (empty hash ring in GetNode, incrementing a
nil vector clock) are modelled by Option results, none standing for
abnormal termination.
-/

set_option autoImplicit false

namespace KVG

/-- Association list lookup, mirroring a Go map read: first binding wins
(with unique keys, the only binding). -/
def alookup {α : Type} {β : Type} [DecidableEq α] : List (α × β) → α → Option β
  | [], _ => none
  | (k, v) :: rest, key => if k = key then some v else alookup rest key

/-- Association list insert or overwrite, mirroring a Go map write: the
existing binding is replaced in place, a fresh key is appended. -/
def ainsert {α : Type} {β : Type} [DecidableEq α] : List (α × β) → α → β → List (α × β)
  | [], key, v => [(key, v)]
  | (k, w) :: rest, key, v => if k = key then (key, v) :: rest else (k, w) :: ainsert rest key v

/-- Association list delete, mirroring a Go map delete. -/
def aerase {α : Type} {β : Type} [DecidableEq α] : List (α × β) → α → List (α × β)
  | [], _ => []
  | (k, w) :: rest, key => if k = key then rest else (k, w) :: aerase rest key

/-- Keys of an association list. -/
def akeys {α : Type} {β : Type} (m : List (α × β)) : List α := m.map Prod.fst

/-
Vector clocks, from internal/vectorclock as used by the store
(struct VectorClock with field Clock map from string to int, and the
methods NewVectorClock, Increment, Merge, Compare).
-/

/-- The Clock map of a Go VectorClock: node id to counter. -/
abbrev VectorClock := List (String × Int)

/-- NewVectorClock returns an empty clock. -/
def NewVectorClock : VectorClock := []

/-- Increment bumps the counter of nodeID by one; a missing entry reads
as zero under the Go map index-increment, so it becomes one. -/
def VectorClock.Increment (vc : VectorClock) (nodeID : String) : VectorClock :=
  ainsert vc nodeID ((alookup vc nodeID).getD 0 + 1)

/-- One iteration of the Merge loop body: take the entry of the other
clock when it is absent locally or strictly larger. -/
def mergeStep (acc : VectorClock) (p : String × Int) : VectorClock :=
  match alookup acc p.1 with
  | some cur => if cur < p.2 then ainsert acc p.1 p.2 else acc
  | none => ainsert acc p.1 p.2

/-- Merge folds the loop body over the entries of the other clock. -/
def VectorClock.Merge (vc other : VectorClock) : VectorClock :=
  other.foldl mergeStep vc

/-- First Compare loop, isLess contribution: some entry of vc is present
in other and strictly smaller there. -/
def lessFlagA (vc other : VectorClock) : Bool :=
  vc.any fun p =>
    match alookup other p.1 with
    | some c => decide (p.2 < c)
    | none => false

/-- First Compare loop, isGreater contribution: some entry of vc is
either strictly larger than the matching entry of other, or missing
from other entirely. -/
def greaterFlag (vc other : VectorClock) : Bool :=
  vc.any fun p =>
    match alookup other p.1 with
    | some c => decide (c < p.2)
    | none => true

/-- Second Compare loop, isLess contribution: some entry of other is
missing from vc. -/
def lessFlagB (vc other : VectorClock) : Bool :=
  other.any fun p => (alookup vc p.1).isNone

/-- Compare returns -1 when vc is strictly older, 1 when strictly newer,
and 0 otherwise (the 0 answer covers both equal and concurrent clocks,
which the Go code does not distinguish). -/
def VectorClock.Compare (vc other : VectorClock) : Int :=
  let isLess := lessFlagA vc other || lessFlagB vc other
  let isGreater := greaterFlag vc other
  if isLess && !isGreater then -1
  else if isGreater && !isLess then 1
  else 0

/-
SHA-1, the standard algorithm behind crypto/sha1 used by
defaultHashFunction in internal/store/hashing.go, embedded over byte
lists (bytes as Nat below 256, 32-bit words as Nat below 2 to the 32).
-/

/-- Rotate a 32-bit word left by n bits. -/
def rotl32 (n x : Nat) : Nat := ((x <<< n) ||| (x >>> (32 - n))) % 4294967296

/-- The SHA-1 round function for round t. -/
def sha1F (t b c d : Nat) : Nat :=
  if t < 20 then (b &&& c) ||| ((b ^^^ 0xFFFFFFFF) &&& d)
  else if t < 40 then b ^^^ c ^^^ d
  else if t < 60 then (b &&& c) ||| (b &&& d) ||| (c &&& d)
  else b ^^^ c ^^^ d

/-- The SHA-1 round constant for round t. -/
def sha1K (t : Nat) : Nat :=
  if t < 20 then 0x5A827999
  else if t < 40 then 0x6ED9EBA1
  else if t < 60 then 0x8F1BBCDC
  else 0xCA62C1D6

/-- Big-endian 32-bit word from four bytes. -/
def wordBE (b0 b1 b2 b3 : Nat) : Nat := (b0 <<< 24) ||| (b1 <<< 16) ||| (b2 <<< 8) ||| b3

/-- Group a byte list into big-endian 32-bit words. -/
def toWords : List Nat → List Nat
  | b0 :: b1 :: b2 :: b3 :: rest => wordBE b0 b1 b2 b3 :: toWords rest
  | _ => []

/-- Extend the 16 message words to 80 by the SHA-1 recurrence, fuel
counting the words still to append. -/
def extendWords : List Nat → Nat → List Nat
  | w, 0 => w
  | w, fuel + 1 =>
    let t := w.length
    extendWords
      (w ++ [rotl32 1 ((w.getD (t - 3) 0) ^^^ (w.getD (t - 8) 0) ^^^
        (w.getD (t - 14) 0) ^^^ (w.getD (t - 16) 0))]) fuel

/-- The five 32-bit words of SHA-1 working state. -/
structure Sha1State where
  a : Nat
  b : Nat
  c : Nat
  d : Nat
  e : Nat
  deriving DecidableEq

/-- One SHA-1 round on the working state. -/
def sha1Round (s : Sha1State) (t w : Nat) : Sha1State :=
  { a := (rotl32 5 s.a + sha1F t s.b s.c s.d + s.e + w + sha1K t) % 4294967296
    b := s.a
    c := rotl32 30 s.b
    d := s.c
    e := s.d }

/-- Compress one 64-byte block into the chaining state. -/
def processBlock (h : Sha1State) (block : List Nat) : Sha1State :=
  let w := extendWords (toWords block) 64
  let f := (List.range 80).foldl (fun s t => sha1Round s t (w.getD t 0)) h
  { a := (h.a + f.a) % 4294967296
    b := (h.b + f.b) % 4294967296
    c := (h.c + f.c) % 4294967296
    d := (h.d + f.d) % 4294967296
    e := (h.e + f.e) % 4294967296 }

/-- The SHA-1 initialization vector. -/
def sha1Init : Sha1State := ⟨0x67452301, 0xEFCDAB89, 0x98BADCFE, 0x10325476, 0xC3D2E1F0⟩

/-- Big-endian 8-byte encoding of a 64-bit length. -/
def be64 (n : Nat) : List Nat :=
  [(n >>> 56) &&& 255, (n >>> 48) &&& 255, (n >>> 40) &&& 255, (n >>> 32) &&& 255,
    (n >>> 24) &&& 255, (n >>> 16) &&& 255, (n >>> 8) &&& 255, n &&& 255]

/-- Big-endian 4-byte encoding of a 32-bit word. -/
def be32 (n : Nat) : List Nat :=
  [(n >>> 24) &&& 255, (n >>> 16) &&& 255, (n >>> 8) &&& 255, n &&& 255]

/-- SHA-1 padding: a 0x80 byte, zeros to 56 mod 64, and the bit length. -/
def sha1Pad (msg : List Nat) : List Nat :=
  msg ++ [128] ++ List.replicate ((119 - msg.length % 64) % 64) 0 ++ be64 (msg.length * 8)

/-- Split a byte list into 64-byte blocks, fuel bounding the block
count. -/
def chunk64Aux : Nat → List Nat → List (List Nat)
  | 0, _ => []
  | fuel + 1, l => if l = [] then [] else l.take 64 :: chunk64Aux fuel (l.drop 64)

/-- Split a byte list into 64-byte blocks. -/
def chunk64 (l : List Nat) : List (List Nat) := chunk64Aux (l.length + 1) l

/-- The SHA-1 chaining state after hashing a whole message. -/
def sha1Words (msg : List Nat) : Sha1State :=
  (chunk64 (sha1Pad msg)).foldl processBlock sha1Init

/-- The 20-byte SHA-1 digest of a byte list. -/
def sha1Digest (msg : List Nat) : List Nat :=
  let s := sha1Words msg
  be32 s.a ++ be32 s.b ++ be32 s.c ++ be32 s.d ++ be32 s.e

/-- UTF-8 encoding of one character, as Go produces when converting a
string to bytes. -/
def utf8Bytes (c : Char) : List Nat :=
  let n := c.toNat
  if n < 128 then [n]
  else if n < 2048 then [192 ||| (n >>> 6), 128 ||| (n &&& 63)]
  else if n < 65536 then
    [224 ||| (n >>> 12), 128 ||| ((n >>> 6) &&& 63), 128 ||| (n &&& 63)]
  else
    [240 ||| (n >>> 18), 128 ||| ((n >>> 12) &&& 63),
      128 ||| ((n >>> 6) &&& 63), 128 ||| (n &&& 63)]

/-- The UTF-8 bytes of a string. -/
def strBytes (s : String) : List Nat :=
  s.data.foldr (fun c acc => utf8Bytes c ++ acc) []

/-
Consistent hashing, from internal/store/hashing.go: struct
ConsistentHashing with defaultHashFunction and GetNode.
-/

/-- A cluster node, from the Gossip file: ID, Address, Alive, LastCheck
(time modelled as Nat). -/
structure Node where
  ID : String
  Address : String
  Alive : Bool
  LastCheck : Nat
  deriving DecidableEq

/-- defaultHashFunction: the 32-bit big-endian projection of the first
four bytes of the SHA-1 digest of the key. -/
def defaultHashFunction (data : String) : Nat :=
  let sum := sha1Digest (strBytes data)
  ((sum.getD 0 0) <<< 24) ||| ((sum.getD 1 0) <<< 16) ||| ((sum.getD 2 0) <<< 8) ||| sum.getD 3 0

/-- The ConsistentHashing struct: vnode count, hash function, sorted
vnode hashes, and the map from vnode hash to node. -/
structure ConsistentHashing where
  VNodes : Nat
  HashFunction : String → Nat
  SortedHashes : List Nat
  HashMap : List (Nat × Node)

/-- NewConsistentHashing starts with the default SHA-1 hash function and
an empty ring. -/
def NewConsistentHashing (vNodes : Nat) : ConsistentHashing :=
  ⟨vNodes, defaultHashFunction, [], []⟩

/-- The loop of Go sort.Search: binary search narrowing the interval
from i (inclusive) to j (exclusive), fuel bounding the iterations. -/
def sortSearchAux : Nat → Nat → Nat → (Nat → Bool) → Nat
  | 0, i, _, _ => i
  | fuel + 1, i, j, f =>
    if i < j then
      if f ((i + j) / 2) then sortSearchAux fuel i ((i + j) / 2) f
      else sortSearchAux fuel ((i + j) / 2 + 1) j f
    else i

/-- Go sort.Search over 0 to n: for a monotone predicate, the smallest
index at which f holds, and n when there is none. -/
def sortSearch (n : Nat) (f : Nat → Bool) : Nat := sortSearchAux (n + 1) 0 n f

/-- GetNode: hash the key, binary-search the sorted vnode hashes for the
first one at least the key hash, wrap to index 0 past the end, and
return the owning node. Returns none exactly when Go panics (empty ring)
or dereferences a nil map entry. -/
def GetNode (ch : ConsistentHashing) (key : String) : Option Node :=
  if ch.SortedHashes = [] then none
  else
    let hash := ch.HashFunction key
    let idx := sortSearch ch.SortedHashes.length fun i => decide (hash ≤ ch.SortedHashes.getD i 0)
    let idx2 := if idx = ch.SortedHashes.length then 0 else idx
    alookup ch.HashMap (ch.SortedHashes.getD idx2 0)

/-
Gossip membership, from the Gossip file: NewGossip, AddNode,
IsNodeAlive. The Go struct also holds Coordinator, Interval and pointers
to the ConsistentHashing and the KeyValueStore; the pointers are passed
explicitly to the store operations below (breaking the Go pointer
cycle), and the election fields are untouched by the verified
operations.
-/

/-- The Gossip peer table and the self node. -/
structure Gossip where
  Nodes : List (String × Node)
  Self : Node

/-- NewGossip: the self node is created alive, and the peer map starts
empty; the self node is not inserted into it. -/
def NewGossip (selfID address : String) : Gossip :=
  { Nodes := [], Self := { ID := selfID, Address := address, Alive := true, LastCheck := 0 } }

/-- AddNode inserts a peer, alive, into the peer map (and its vnodes
into the ring, modelled separately). -/
def Gossip.AddNode (g : Gossip) (nodeID address : String) : Gossip :=
  { g with Nodes := ainsert g.Nodes nodeID { ID := nodeID, Address := address, Alive := true, LastCheck := 0 } }

/-- IsNodeAlive: look the id up in the peer map; an absent id is not
alive. -/
def Gossip.IsNodeAlive (g : Gossip) (nodeID : String) : Bool :=
  match alookup g.Nodes nodeID with
  | some node => node.Alive
  | none => false

/-
The key-value store, from internal/store/kvstore.go: DataItem, Hint,
Page, PageManager, writeDataToDisk, Put, Get, readDataFromDisk,
processHintedHandoff, ResolveConflicts.
-/

/-- PageSize, the fixed page size in bytes. -/
def PageSize : Nat := 4096

/-- A stored item: the value and its version. The clock field is a Go
pointer (named VectorClock there) and may be nil. -/
structure DataItem where
  Value : String
  VClock : Option VectorClock
  deriving DecidableEq

/-- A hinted-handoff record. -/
structure Hint where
  Key : String
  Value : String
  TargetID : String
  Timestamp : Nat
  deriving DecidableEq

/-- A page: id, buffer (bytes modelled as Char, zero byte as Char 0),
and used byte count. -/
structure Page where
  ID : Int
  Buffer : List Char
  Used : Nat
  deriving DecidableEq

/-- The page manager: the next page id and the backing file content,
page by page (every write is exactly PageSize bytes at offset
ID times PageSize, so the file is an id-indexed page map). -/
structure PageManager where
  NextPageID : Int
  Pages : List (Int × List Char)
  deriving DecidableEq

/-- AllocatePage: a fresh zeroed page with the next id. -/
def AllocatePage (pm : PageManager) : Page × PageManager :=
  (⟨pm.NextPageID, List.replicate PageSize (Char.ofNat 0), 0⟩,
    { pm with NextPageID := pm.NextPageID + 1 })

/-- WritePage stores the full buffer at the page offset. -/
def WritePage (pm : PageManager) (page : Page) : PageManager :=
  { pm with Pages := ainsert pm.Pages page.ID page.Buffer }

/-- The in-memory store state owned by the engine mutex. -/
structure KeyValueStore where
  Data : List (String × DataItem)
  HintedData : List (String × Hint)
  PageMgr : PageManager
  deriving DecidableEq

/-- writeDataToDisk allocates a fresh page, copies the key bytes to
offset 0 and the value bytes right after them, and writes the page; no
separator or record length is maintained. Returns none exactly when Go
panics slicing the buffer (key longer than the page). -/
def writeDataToDisk (kv : KeyValueStore) (key value : String) : Option KeyValueStore :=
  if PageSize < key.length then none
  else
    let (page, pm1) := AllocatePage kv.PageMgr
    let buf := (key.data ++ value.data ++ List.replicate PageSize (Char.ofNat 0)).take PageSize
    some { kv with PageMgr := WritePage pm1 { page with Buffer := buf } }

/-- Put: find the ring target; if it is not alive, record a hint keyed
by the key and return; otherwise increment the clock of an existing item
(none when the stored clock pointer is nil and Go would panic) or create
a fresh clock at one for the self node, overwrite the value, and persist
via writeDataToDisk. -/
def KeyValueStore.Put (g : Gossip) (ch : ConsistentHashing) (kv : KeyValueStore)
    (key value : String) (now : Nat) : Option KeyValueStore :=
  match GetNode ch key with
  | none => none
  | some vnode =>
    if !(g.IsNodeAlive vnode.ID) then
      some { kv with HintedData := ainsert kv.HintedData key ⟨key, value, vnode.ID, now⟩ }
    else
      match alookup kv.Data key with
      | some item =>
        match item.VClock with
        | none => none
        | some vc =>
          writeDataToDisk
            { kv with Data := ainsert kv.Data key ⟨value, some (vc.Increment g.Self.ID)⟩ }
            key value
      | none =>
        writeDataToDisk
          { kv with Data := ainsert kv.Data key ⟨value, some (NewVectorClock.Increment g.Self.ID)⟩ }
          key value

/-- getPageIDForKey maps a key to the page holding it by key length (the
source notes this is a simplistic placeholder). -/
def getPageIDForKey (key : String) : Int := key.length

/-- readDataFromDisk reads the page at the id derived from the key and
returns its whole buffer as a string; none when the read fails (the page
was never written). -/
def readDataFromDisk (kv : KeyValueStore) (key : String) : Option String :=
  match alookup kv.PageMgr.Pages (getPageIDForKey key) with
  | some buf => some (String.mk buf)
  | none => none

/-- Get: when the ring target is alive and the key is in memory, return
value, clock and true; otherwise fall back to the disk path, which
yields the raw page (with no clock) or a not-found triple. -/
def KeyValueStore.Get (g : Gossip) (ch : ConsistentHashing) (kv : KeyValueStore)
    (key : String) : Option (String × Option VectorClock × Bool) :=
  match GetNode ch key with
  | none => none
  | some vnode =>
    let fallback : String × Option VectorClock × Bool :=
      match readDataFromDisk kv key with
      | some v => (v, none, true)
      | none => ("", none, false)
    if g.IsNodeAlive vnode.ID then
      match alookup kv.Data key with
      | some item => some (item.Value, item.VClock, true)
      | none => some fallback
    else some fallback

/-- One iteration of the hinted-handoff drain loop: a hint whose target
is alive is replayed into Data as a fresh DataItem holding only the
value (the clock pointer is left nil) and removed from the hint map;
other hints are kept. -/
def handoffStep (g : Gossip) (acc : KeyValueStore) (p : String × Hint) : KeyValueStore :=
  if g.IsNodeAlive p.2.TargetID then
    { acc with
      Data := ainsert acc.Data p.1 ⟨p.2.Value, none⟩
      HintedData := aerase acc.HintedData p.1 }
  else acc

/-- processHintedHandoff iterates the hint map once, draining hints for
targets that are back alive. -/
def processHintedHandoff (g : Gossip) (kv : KeyValueStore) : KeyValueStore :=
  kv.HintedData.foldl (handoffStep g) kv

/-- ResolveConflicts: for an unknown key, insert the incoming item as
is. For a known key, compare the local clock with the incoming one:
when the local clock is strictly older (-1), overwrite the value and
merge the clocks; in the conflict (0) and newer (1) cases only a log
line is emitted and the store is unchanged. Nothing is persisted on any
path. Returns none when the stored clock pointer is nil and Go would
panic dereferencing it. -/
def KeyValueStore.ResolveConflicts (kv : KeyValueStore) (key newValue : String)
    (newVectorClock : VectorClock) : Option KeyValueStore :=
  match alookup kv.Data key with
  | some item =>
    match item.VClock with
    | none => none
    | some vc =>
      if vc.Compare newVectorClock = -1 then
        some { kv with Data := ainsert kv.Data key ⟨newValue, some (vc.Merge newVectorClock)⟩ }
      else some kv
  | none =>
    some { kv with Data := ainsert kv.Data key ⟨newValue, some newVectorClock⟩ }

/-
Concrete states used by the examples and witnesses below.
-/

/-- A peer node n2, alive. -/
def nodeN2 : Node := ⟨"n2", "localhost:8082", true, 0⟩

/-- The self node n1. -/
def nodeN1 : Node := ⟨"n1", "localhost:8081", true, 0⟩

/-- A gossip view from n1 that knows peer n2 alive. -/
def gossipN1 : Gossip := ⟨[("n2", nodeN2)], nodeN1⟩

/-- A one-vnode ring owned by n2, with a constant hash function (the
HashFunction field of the Go struct admits any function). -/
def ringToN2 : ConsistentHashing := ⟨3, fun _ => 0, [5], [(5, nodeN2)]⟩

/-- A one-vnode ring owned by the self node n1. -/
def ringToN1 : ConsistentHashing := ⟨3, fun _ => 0, [7], [(7, nodeN1)]⟩

/-- A ring with the default SHA-1 hash function and two vnodes. -/
def ringSha : ConsistentHashing := ⟨3, defaultHashFunction, [100, 200], [(100, nodeN1), (200, nodeN2)]⟩

/-- The empty store. -/
def kvEmpty : KeyValueStore := ⟨[], [], ⟨0, []⟩⟩

/-- A store holding key x with value 1 and clock n1 at 1. -/
def kvX1 : KeyValueStore := ⟨[("x", ⟨"1", some [("n1", 1)]⟩)], [], ⟨0, []⟩⟩

/-- A store holding one hint for key k targeted at n2. -/
def kvHintK : KeyValueStore := ⟨[], [("k", ⟨"k", "v", "n2", 5⟩)], ⟨0, []⟩⟩

/-
Spec-side definitions, for comparison with the code. These are modelled
from the specification wording, not from the source: the spec describes
compare as yielding one of Less, Greater, Equal, Concurrent from the
existence of entrywise differences, a missing entry read as counter 0.
Differences can only occur at keys present on some side, so the
existential quantifiers range over those keys. Equal and Concurrent are
rendered as the result 0 that the Go code returns for both.
-/

/-- The counter of a clock at a key, a missing entry read as 0 (spec
wording). -/
def entry0 (m : VectorClock) (k : String) : Int := (alookup m k).getD 0

/-- Spec wording: some entry of self is strictly below the matching
entry of other, missing entries read as 0. -/
def specAnyLess (a b : VectorClock) : Bool :=
  (akeys a ++ akeys b).any fun k => decide (entry0 a k < entry0 b k)

/-- Spec wording: some entry of self is strictly above the matching
entry of other, missing entries read as 0. -/
def specAnyGreater (a b : VectorClock) : Bool :=
  (akeys a ++ akeys b).any fun k => decide (entry0 b k < entry0 a k)

/-- The comparison the spec describes, with Less as -1, Greater as 1,
and Equal (neither flag) and Concurrent (both flags) as the 0 the code
returns for them. -/
def specCompare (a b : VectorClock) : Int :=
  if specAnyLess a b && !(specAnyGreater a b) then -1
  else if specAnyGreater a b && !(specAnyLess a b) then 1
  else 0

/-- All counters of a clock are at least one, as produced by Increment
and Merge of such clocks. -/
def positiveClock (m : VectorClock) : Prop := ∀ p ∈ m, 1 ≤ p.2

instance (m : VectorClock) : Decidable (positiveClock m) :=
  inferInstanceAs (Decidable (∀ p ∈ m, 1 ≤ p.2))

/-
Theorems. First the association list laws used throughout.
-/

section AssocLemmas

variable {α : Type} {β : Type} [DecidableEq α]

theorem alookup_eq_none_iff (m : List (α × β)) (k : α) :
    alookup m k = none ↔ k ∉ akeys m := by
  induction m with
  | nil => simp [alookup, akeys]
  | cons p rest ih =>
    obtain ⟨k0, w⟩ := p
    by_cases h : k0 = k
    · subst h
      simp [alookup, akeys]
    · simp [alookup, akeys, h, Ne.symm h] at ih ⊢
      exact ih

theorem alookup_mem {m : List (α × β)} {k : α} {v : β}
    (h : alookup m k = some v) : (k, v) ∈ m := by
  induction m with
  | nil => simp [alookup] at h
  | cons p rest ih =>
    obtain ⟨k0, w⟩ := p
    by_cases h0 : k0 = k
    · subst h0
      simp [alookup] at h
      simp [h]
    · simp [alookup, h0] at h
      exact List.mem_cons_of_mem _ (ih h)

theorem alookup_of_mem_nodup {m : List (α × β)} {k : α} {v : β}
    (hnd : (akeys m).Nodup) (hmem : (k, v) ∈ m) : alookup m k = some v := by
  induction m with
  | nil => simp at hmem
  | cons p rest ih =>
    obtain ⟨k0, w⟩ := p
    simp only [akeys, List.map_cons, List.nodup_cons] at hnd
    rcases List.mem_cons.mp hmem with he | hrest
    · obtain ⟨he1, he2⟩ := Prod.mk.injEq .. ▸ he
      subst he1; subst he2
      simp [alookup]
    · have hne : k0 ≠ k := by
        intro he
        subst he
        exact hnd.1 (List.mem_map.mpr ⟨(k0, v), hrest, rfl⟩)
      simp [alookup, hne]
      exact ih hnd.2 hrest

theorem alookup_ainsert_self (m : List (α × β)) (k : α) (v : β) :
    alookup (ainsert m k v) k = some v := by
  induction m with
  | nil => simp [ainsert, alookup]
  | cons p rest ih =>
    obtain ⟨k0, w⟩ := p
    by_cases h : k0 = k <;> simp [ainsert, alookup, h, ih]

theorem alookup_ainsert_ne (m : List (α × β)) (k k0 : α) (v : β) (h : k ≠ k0) :
    alookup (ainsert m k v) k0 = alookup m k0 := by
  induction m with
  | nil => simp [ainsert, alookup, h]
  | cons p rest ih =>
    obtain ⟨k1, w⟩ := p
    by_cases h1 : k1 = k
    · subst h1
      simp [ainsert, alookup, h, Ne.symm h]
    · by_cases h2 : k1 = k0 <;> simp [ainsert, alookup, h1, h2, Ne.symm h, ih]

theorem alookup_aerase_ne (m : List (α × β)) (k k0 : α) (h : k ≠ k0) :
    alookup (aerase m k) k0 = alookup m k0 := by
  induction m with
  | nil => simp [aerase]
  | cons p rest ih =>
    obtain ⟨k1, w⟩ := p
    by_cases h1 : k1 = k
    · subst h1
      simp [aerase, alookup, h]
    · by_cases h2 : k1 = k0 <;> simp [aerase, alookup, h1, h2, Ne.symm h, ih]

theorem alookup_aerase_self (m : List (α × β)) (k : α)
    (hnd : (akeys m).Nodup) : alookup (aerase m k) k = none := by
  induction m with
  | nil => simp [aerase, alookup]
  | cons p rest ih =>
    obtain ⟨k0, w⟩ := p
    simp only [akeys, List.map_cons, List.nodup_cons] at hnd
    by_cases h : k0 = k
    · subst h
      simp only [aerase, if_pos rfl]
      exact (alookup_eq_none_iff rest k0).mpr hnd.1
    · simp [aerase, alookup, h]
      exact ih hnd.2

theorem mem_akeys_ainsert (m : List (α × β)) (k a : α) (v : β) :
    a ∈ akeys (ainsert m k v) ↔ a ∈ akeys m ∨ a = k := by
  induction m with
  | nil => simp [ainsert, akeys]
  | cons p rest ih =>
    obtain ⟨k0, w⟩ := p
    by_cases h : k0 = k
    · subst h
      simp [ainsert, akeys]
      tauto
    · simp [ainsert, akeys, h] at ih ⊢
      tauto

theorem nodup_akeys_ainsert (m : List (α × β)) (k : α) (v : β)
    (hnd : (akeys m).Nodup) : (akeys (ainsert m k v)).Nodup := by
  induction m with
  | nil => simp [ainsert, akeys]
  | cons p rest ih =>
    obtain ⟨k0, w⟩ := p
    simp only [akeys, List.map_cons, List.nodup_cons] at hnd
    by_cases h : k0 = k
    · subst h
      simpa [ainsert, akeys] using hnd
    · simp only [ainsert, if_neg h, akeys, List.map_cons, List.nodup_cons]
      constructor
      · intro hmem
        rcases (mem_akeys_ainsert rest k k0 v).mp hmem with hr | he
        · exact hnd.1 hr
        · exact h he
      · exact ih hnd.2

end AssocLemmas

/-
Vector clock laws: characterizations of the Compare flags, swap
symmetry, and domination of Merge.
-/

theorem compare_def (a b : VectorClock) :
    VectorClock.Compare a b =
      if (lessFlagA a b || lessFlagB a b) && !(greaterFlag a b) then -1
      else if greaterFlag a b && !(lessFlagA a b || lessFlagB a b) then 1
      else 0 := rfl

theorem lessFlagA_iff (a b : VectorClock) :
    lessFlagA a b = true ↔ ∃ k v c, (k, v) ∈ a ∧ alookup b k = some c ∧ v < c := by
  simp only [lessFlagA, List.any_eq_true]
  constructor
  · rintro ⟨⟨k, v⟩, hmem, hp⟩
    cases hl : alookup b k with
    | none => simp [hl] at hp
    | some c =>
      simp only [hl, decide_eq_true_eq] at hp
      exact ⟨k, v, c, hmem, hl, hp⟩
  · rintro ⟨k, v, c, hmem, hl, hlt⟩
    exact ⟨(k, v), hmem, by simp [hl, hlt]⟩

theorem greaterFlag_iff (a b : VectorClock) :
    greaterFlag a b = true ↔
      ∃ k v, (k, v) ∈ a ∧ ((∃ c, alookup b k = some c ∧ c < v) ∨ alookup b k = none) := by
  simp only [greaterFlag, List.any_eq_true]
  constructor
  · rintro ⟨⟨k, v⟩, hmem, hp⟩
    cases hl : alookup b k with
    | none => exact ⟨k, v, hmem, Or.inr hl⟩
    | some c =>
      simp only [hl, decide_eq_true_eq] at hp
      exact ⟨k, v, hmem, Or.inl ⟨c, hl, hp⟩⟩
  · rintro ⟨k, v, hmem, ⟨c, hl, hlt⟩ | hnone⟩
    · exact ⟨(k, v), hmem, by simp [hl, hlt]⟩
    · exact ⟨(k, v), hmem, by simp [hnone]⟩

theorem lessFlagB_iff (a b : VectorClock) :
    lessFlagB a b = true ↔ ∃ k v, (k, v) ∈ b ∧ alookup a k = none := by
  simp only [lessFlagB, List.any_eq_true, Option.isNone_iff_eq_none]
  constructor
  · rintro ⟨⟨k, v⟩, hmem, h⟩
    exact ⟨k, v, hmem, h⟩
  · rintro ⟨k, v, hmem, h⟩
    exact ⟨(k, v), hmem, h⟩

theorem lessFlag_swap (a b : VectorClock) (ha : (akeys a).Nodup) (hb : (akeys b).Nodup) :
    (lessFlagA a b || lessFlagB a b) = greaterFlag b a := by
  have hiff : (lessFlagA a b || lessFlagB a b) = true ↔ greaterFlag b a = true := by
    simp only [Bool.or_eq_true, lessFlagA_iff, lessFlagB_iff, greaterFlag_iff]
    constructor
    · rintro (⟨k, v, c, hmem, hl, hlt⟩ | ⟨k, v, hmem, hnone⟩)
      · exact ⟨k, c, alookup_mem hl, Or.inl ⟨v, alookup_of_mem_nodup ha hmem, hlt⟩⟩
      · exact ⟨k, v, hmem, Or.inr hnone⟩
    · rintro ⟨k, v, hmem, ⟨c, hl, hlt⟩ | hnone⟩
      · exact Or.inl ⟨k, c, v, alookup_mem hl, alookup_of_mem_nodup hb hmem, hlt⟩
      · exact Or.inr ⟨k, v, hmem, hnone⟩
  cases h1 : (lessFlagA a b || lessFlagB a b) <;> cases h2 : greaterFlag b a <;> simp_all

theorem mergeStep_lookup_mono (acc : VectorClock) (p : String × Int) (k : String) (v : Int)
    (h : alookup acc k = some v) :
    ∃ w, alookup (mergeStep acc p) k = some w ∧ v ≤ w := by
  unfold mergeStep
  cases hp : alookup acc p.1 with
  | some cur =>
    by_cases hlt : cur < p.2
    · simp only [if_pos hlt]
      by_cases hk : p.1 = k
      · subst hk
        rw [hp] at h
        injection h with hv
        subst hv
        exact ⟨p.2, alookup_ainsert_self .., le_of_lt hlt⟩
      · rw [alookup_ainsert_ne _ _ _ _ hk]
        exact ⟨v, h, le_refl v⟩
    · simp only [if_neg hlt]
      exact ⟨v, h, le_refl v⟩
  | none =>
    by_cases hk : p.1 = k
    · subst hk
      rw [hp] at h
      cases h
    · rw [alookup_ainsert_ne _ _ _ _ hk]
      exact ⟨v, h, le_refl v⟩

theorem mergeStep_target (acc : VectorClock) (p : String × Int) :
    ∃ w, alookup (mergeStep acc p) p.1 = some w ∧ p.2 ≤ w := by
  unfold mergeStep
  cases hp : alookup acc p.1 with
  | some cur =>
    by_cases hlt : cur < p.2
    · simp only [if_pos hlt]
      exact ⟨p.2, alookup_ainsert_self .., le_refl _⟩
    · simp only [if_neg hlt]
      exact ⟨cur, hp, le_of_not_lt hlt⟩
  | none => exact ⟨p.2, alookup_ainsert_self .., le_refl _⟩

theorem mergeStep_none_iff (acc : VectorClock) (p : String × Int) (k : String) :
    alookup (mergeStep acc p) k = none ↔ alookup acc k = none ∧ k ≠ p.1 := by
  unfold mergeStep
  by_cases hk : p.1 = k
  · subst hk
    cases hp : alookup acc p.1 with
    | some cur =>
      by_cases hlt : cur < p.2 <;>
        simp [hp, hlt, alookup_ainsert_self]
    | none => simp [alookup_ainsert_self]
  · cases hp : alookup acc p.1 with
    | some cur =>
      by_cases hlt : cur < p.2 <;>
        simp [hp, hlt, alookup_ainsert_ne _ _ _ _ hk, Ne.symm hk]
    | none => simp [alookup_ainsert_ne _ _ _ _ hk, Ne.symm hk]

theorem merge_lookup_mono (b a : VectorClock) (k : String) (v : Int)
    (h : alookup a k = some v) :
    ∃ w, alookup (VectorClock.Merge a b) k = some w ∧ v ≤ w := by
  induction b generalizing a v with
  | nil => exact ⟨v, h, le_refl v⟩
  | cons p rest ih =>
    obtain ⟨w1, hw1, hle1⟩ := mergeStep_lookup_mono a p k v h
    obtain ⟨w2, hw2, hle2⟩ := ih (mergeStep a p) w1 hw1
    exact ⟨w2, hw2, le_trans hle1 hle2⟩

theorem merge_dominates_other (b a : VectorClock) (k : String) (v : Int)
    (h : alookup b k = some v) :
    ∃ w, alookup (VectorClock.Merge a b) k = some w ∧ v ≤ w := by
  induction b generalizing a with
  | nil => cases h
  | cons p rest ih =>
    obtain ⟨k0, c0⟩ := p
    by_cases hk : k0 = k
    · subst hk
      simp only [alookup, if_pos rfl] at h
      obtain ⟨w1, hw1, hle1⟩ := mergeStep_target a (k0, c0)
      obtain ⟨w2, hw2, hle2⟩ := merge_lookup_mono rest (mergeStep a (k0, c0)) k0 w1 hw1
      refine ⟨w2, hw2, ?_⟩
      have hv : c0 = v := by injection h
      omega
    · simp only [alookup, if_neg hk] at h
      exact ih (mergeStep a (k0, c0)) h

theorem merge_none_iff (b a : VectorClock) (k : String) :
    alookup (VectorClock.Merge a b) k = none ↔
      alookup a k = none ∧ alookup b k = none := by
  induction b generalizing a with
  | nil => simp [VectorClock.Merge, alookup]
  | cons p rest ih =>
    obtain ⟨k0, c0⟩ := p
    show alookup (VectorClock.Merge (mergeStep a (k0, c0)) rest) k = none ↔ _
    rw [ih, mergeStep_none_iff]
    simp only [alookup]
    by_cases hk : k0 = k
    · subst hk
      simp
    · simp only [if_neg hk]
      tauto

theorem nodup_mergeStep (acc : VectorClock) (p : String × Int)
    (h : (akeys acc).Nodup) : (akeys (mergeStep acc p)).Nodup := by
  unfold mergeStep
  cases hp : alookup acc p.1 with
  | some cur =>
    by_cases hlt : cur < p.2
    · simp only [if_pos hlt]
      exact nodup_akeys_ainsert _ _ _ h
    · simpa [if_neg hlt] using h
  | none => exact nodup_akeys_ainsert _ _ _ h

theorem nodup_merge (b a : VectorClock) (h : (akeys a).Nodup) :
    (akeys (VectorClock.Merge a b)).Nodup := by
  induction b generalizing a with
  | nil => exact h
  | cons p rest ih => exact ih (mergeStep a p) (nodup_mergeStep a p h)

theorem compare_merge_core (m c : VectorClock) (hm : (akeys m).Nodup)
    (hmono : ∀ k v, alookup c k = some v → ∃ w, alookup m k = some w ∧ v ≤ w)
    (hnone : ∀ k, alookup m k = none → alookup c k = none) :
    VectorClock.Compare m c = 1 ∨
      (VectorClock.Compare m c = 0 ∧ ∀ k, alookup m k = alookup c k) := by
  have hLA : lessFlagA m c = false := by
    cases hx : lessFlagA m c with
    | false => rfl
    | true =>
      obtain ⟨k, v, cc, hmem, hl, hlt⟩ := (lessFlagA_iff m c).mp hx
      obtain ⟨w, hw, hle⟩ := hmono k cc hl
      rw [alookup_of_mem_nodup hm hmem] at hw
      injection hw with hvw
      omega
  have hLB : lessFlagB m c = false := by
    cases hx : lessFlagB m c with
    | false => rfl
    | true =>
      obtain ⟨k, v, hmem, hmn⟩ := (lessFlagB_iff m c).mp hx
      have hcn := hnone k hmn
      rw [alookup_eq_none_iff] at hcn
      exact absurd (List.mem_map.mpr ⟨(k, v), hmem, rfl⟩) hcn
  rw [compare_def, hLA, hLB]
  cases hG : greaterFlag m c with
  | true => left; rfl
  | false =>
    right
    refine ⟨rfl, fun k => ?_⟩
    cases hmk : alookup m k with
    | none => rw [hnone k hmk]
    | some w =>
      have hmem := alookup_mem hmk
      have hng : ¬ ∃ k v, (k, v) ∈ m ∧
          ((∃ cc, alookup c k = some cc ∧ cc < v) ∨ alookup c k = none) := by
        rw [← greaterFlag_iff]
        simp [hG]
      cases hck : alookup c k with
      | none => exact absurd ⟨k, w, hmem, Or.inr hck⟩ hng
      | some cc =>
        have hnlt : ¬ cc < w := fun hlt => hng ⟨k, w, hmem, Or.inl ⟨cc, hck, hlt⟩⟩
        obtain ⟨w2, hw2, hle⟩ := hmono k cc hck
        rw [hmk] at hw2
        injection hw2 with hww
        subst hww
        have : cc = w := le_antisymm hle (not_lt.mp hnlt)
        rw [this]

/-
Relating the Compare flags of the code to the spec flags, for clocks
with positive counters and unique keys.
-/

theorem entry0_of_mem {m : VectorClock} {k : String} {v : Int}
    (hnd : (akeys m).Nodup) (hmem : (k, v) ∈ m) : entry0 m k = v := by
  rw [entry0, alookup_of_mem_nodup hnd hmem]
  rfl

theorem entry0_nonneg {m : VectorClock} (hp : positiveClock m) (k : String) :
    0 ≤ entry0 m k := by
  rw [entry0]
  cases hl : alookup m k with
  | none => simp
  | some v =>
    have := hp (k, v) (alookup_mem hl)
    simpa using by omega

theorem entry0_pos_lookup {m : VectorClock} {k : String}
    (h : 0 < entry0 m k) : alookup m k = some (entry0 m k) := by
  rw [entry0] at h ⊢
  cases hl : alookup m k with
  | none => simp [hl] at h
  | some v => simp

theorem mem_keysOf_left {a b : VectorClock} {k : String} {v : Int}
    (hmem : (k, v) ∈ a) : k ∈ akeys a ++ akeys b :=
  List.mem_append_left _ (List.mem_map.mpr ⟨(k, v), hmem, rfl⟩)

theorem mem_keysOf_right {a b : VectorClock} {k : String} {v : Int}
    (hmem : (k, v) ∈ b) : k ∈ akeys a ++ akeys b :=
  List.mem_append_right _ (List.mem_map.mpr ⟨(k, v), hmem, rfl⟩)

theorem greaterFlag_eq_spec (a b : VectorClock)
    (ha : (akeys a).Nodup) (hb : (akeys b).Nodup)
    (hpa : positiveClock a) (hpb : positiveClock b) :
    greaterFlag a b = specAnyGreater a b := by
  have hiff : greaterFlag a b = true ↔ specAnyGreater a b = true := by
    rw [greaterFlag_iff]
    simp only [specAnyGreater, List.any_eq_true, decide_eq_true_eq]
    constructor
    · rintro ⟨k, v, hmem, ⟨c, hl, hlt⟩ | hnone⟩
      · refine ⟨k, mem_keysOf_left hmem, ?_⟩
        rw [entry0_of_mem ha hmem, entry0, hl]
        exact hlt
      · refine ⟨k, mem_keysOf_left hmem, ?_⟩
        rw [entry0_of_mem ha hmem, entry0, hnone]
        simpa using hpa (k, v) hmem
    · rintro ⟨k, _, hlt⟩
      have hbn := entry0_nonneg hpb k
      have hpos : 0 < entry0 a k := by omega
      have hak := entry0_pos_lookup hpos
      refine ⟨k, entry0 a k, alookup_mem hak, ?_⟩
      cases hbl : alookup b k with
      | none => exact Or.inr rfl
      | some c =>
        refine Or.inl ⟨c, rfl, ?_⟩
        have : entry0 b k = c := by rw [entry0, hbl]; rfl
        omega
  cases h1 : greaterFlag a b <;> cases h2 : specAnyGreater a b <;> simp_all

theorem lessFlag_eq_spec (a b : VectorClock)
    (ha : (akeys a).Nodup) (hb : (akeys b).Nodup)
    (hpa : positiveClock a) (hpb : positiveClock b) :
    (lessFlagA a b || lessFlagB a b) = specAnyLess a b := by
  have hiff : (lessFlagA a b || lessFlagB a b) = true ↔ specAnyLess a b = true := by
    simp only [Bool.or_eq_true, lessFlagA_iff, lessFlagB_iff]
    simp only [specAnyLess, List.any_eq_true, decide_eq_true_eq]
    constructor
    · rintro (⟨k, v, c, hmem, hl, hlt⟩ | ⟨k, v, hmem, hnone⟩)
      · refine ⟨k, mem_keysOf_left hmem, ?_⟩
        rw [entry0_of_mem ha hmem, entry0, hl]
        exact hlt
      · refine ⟨k, mem_keysOf_right hmem, ?_⟩
        rw [entry0_of_mem hb hmem, entry0, hnone]
        simpa using hpb (k, v) hmem
    · rintro ⟨k, _, hlt⟩
      have han := entry0_nonneg hpa k
      have hpos : 0 < entry0 b k := by omega
      have hbk := entry0_pos_lookup hpos
      cases hal : alookup a k with
      | none => exact Or.inr ⟨k, entry0 b k, alookup_mem hbk, hal⟩
      | some v =>
        refine Or.inl ⟨k, v, entry0 b k, alookup_mem hal, hbk, ?_⟩
        have : entry0 a k = v := by rw [entry0, hal]; rfl
        omega
  cases h1 : (lessFlagA a b || lessFlagB a b) <;> cases h2 : specAnyLess a b <;> simp_all

/-
Correctness of the Go sort.Search binary search loop: on a monotone
predicate it returns the smallest index at which the predicate holds,
or n when there is none.
-/

theorem sortSearchAux_spec (n : Nat) (f : Nat → Bool)
    (hmono : ∀ i j, i ≤ j → j < n → f i = true → f j = true) :
    ∀ fuel i j, i ≤ j → j ≤ n → j - i < fuel →
      (∀ k, k < i → f k = false) → (∀ k, j ≤ k → k < n → f k = true) →
      i ≤ sortSearchAux fuel i j f ∧ sortSearchAux fuel i j f ≤ j ∧
        (∀ k, k < sortSearchAux fuel i j f → f k = false) ∧
        (sortSearchAux fuel i j f < n → f (sortSearchAux fuel i j f) = true) := by
  intro fuel
  induction fuel with
  | zero =>
    intro i j _ _ hfuel _ _
    omega
  | succ fuel ih =>
    intro i j hij hjn hfuel hlow hhigh
    by_cases hlt : i < j
    · simp only [sortSearchAux, if_pos hlt]
      by_cases hf : f ((i + j) / 2) = true
      · simp only [if_pos hf]
        have h1 : i ≤ (i + j) / 2 := by omega
        have h2 : (i + j) / 2 < j := by omega
        have := ih i ((i + j) / 2) h1 (by omega) (by omega) hlow
          (fun k hk hkn => hmono ((i + j) / 2) k (by omega) hkn hf)
        exact ⟨this.1, by omega, this.2.2.1, this.2.2.2⟩
      · simp only [if_neg hf]
        have h1 : (i + j) / 2 + 1 ≤ j := by omega
        have hlow2 : ∀ k, k < (i + j) / 2 + 1 → f k = false := by
          intro k hk
          by_cases hki : k < i
          · exact hlow k hki
          · cases hfk : f k with
            | false => rfl
            | true =>
              have : (i + j) / 2 < n := by omega
              exact absurd (hmono k ((i + j) / 2) (by omega) this hfk) hf
        have := ih ((i + j) / 2 + 1) j h1 hjn (by omega) hlow2 hhigh
        exact ⟨by omega, this.2.1, this.2.2.1, this.2.2.2⟩
    · simp only [sortSearchAux, if_neg hlt]
      have hieq : i = j := by omega
      exact ⟨le_refl i, by omega, hlow, fun hin => hhigh i (by omega) hin⟩

theorem sortSearch_spec (n : Nat) (f : Nat → Bool)
    (hmono : ∀ i j, i ≤ j → j < n → f i = true → f j = true) :
    sortSearch n f ≤ n ∧
      (∀ k, k < sortSearch n f → f k = false) ∧
      (sortSearch n f < n → f (sortSearch n f) = true) := by
  have := sortSearchAux_spec n f hmono (n + 1) 0 n (by omega) (le_refl n) (by omega)
    (fun k hk => absurd hk (by omega)) (fun k hk hkn => absurd hkn (by omega))
  rw [sortSearch]
  exact ⟨this.2.1, this.2.2.1, this.2.2.2⟩

theorem sorted_getD_mono {l : List Nat} (hs : List.Sorted (· ≤ ·) l)
    {i j : Nat} (hij : i ≤ j) (hj : j < l.length) :
    l.getD i 0 ≤ l.getD j 0 := by
  have hi : i < l.length := lt_of_le_of_lt hij hj
  rw [List.getD_eq_getElem _ _ hi, List.getD_eq_getElem _ _ hj]
  rcases eq_or_lt_of_le hij with rfl | hlt
  · exact le_refl _
  · have := hs.rel_get_of_lt (show (⟨i, hi⟩ : Fin l.length) < ⟨j, hj⟩ from hlt)
    simpa using this

/-
The claims.
-/

/-- C7: for all vector clocks A and B (with the unique keys every Go map
has), the merged clock C = A.Merge(B) compares as Greater (1) or as 0
against each of A and B; in the 0 case the merged clock coincides with
the compared clock at every key, so the 0 verdict of the three-valued Go
Compare stands for Equal there, never for Concurrent. -/
theorem merge_compare_ge (a b : VectorClock) (ha : (akeys a).Nodup) :
    (VectorClock.Compare (VectorClock.Merge a b) a = 1 ∨
      (VectorClock.Compare (VectorClock.Merge a b) a = 0 ∧
        ∀ k, alookup (VectorClock.Merge a b) k = alookup a k)) ∧
    (VectorClock.Compare (VectorClock.Merge a b) b = 1 ∨
      (VectorClock.Compare (VectorClock.Merge a b) b = 0 ∧
        ∀ k, alookup (VectorClock.Merge a b) k = alookup b k)) := by
  have hm := nodup_merge b a ha
  constructor
  · exact compare_merge_core _ _ hm (fun k v h => merge_lookup_mono b a k v h)
      (fun k h => ((merge_none_iff b a k).mp h).1)
  · exact compare_merge_core _ _ hm (fun k v h => merge_dominates_other b a k v h)
      (fun k h => ((merge_none_iff b a k).mp h).2)

/-- C7 witness: the theorem applied to the concrete clocks of the spec
scenario, n1 at 2 and n2 at 1. -/
theorem merge_compare_ge_witness :
    (akeys ([("n1", (2 : Int))] : VectorClock)).Nodup ∧
    ((VectorClock.Compare (VectorClock.Merge [("n1", (2 : Int))] [("n2", 1)]) [("n1", (2 : Int))] = 1 ∨
      (VectorClock.Compare (VectorClock.Merge [("n1", (2 : Int))] [("n2", 1)]) [("n1", (2 : Int))] = 0 ∧
        ∀ k, alookup (VectorClock.Merge [("n1", (2 : Int))] [("n2", 1)]) k = alookup [("n1", (2 : Int))] k)) ∧
    (VectorClock.Compare (VectorClock.Merge [("n1", (2 : Int))] [("n2", 1)]) [("n2", (1 : Int))] = 1 ∨
      (VectorClock.Compare (VectorClock.Merge [("n1", (2 : Int))] [("n2", 1)]) [("n2", (1 : Int))] = 0 ∧
        ∀ k, alookup (VectorClock.Merge [("n1", (2 : Int))] [("n2", 1)]) k = alookup [("n2", (1 : Int))] k))) :=
  ⟨by decide, merge_compare_ge [("n1", (2 : Int))] [("n2", 1)] (by decide)⟩

/-- C8: Compare is antisymmetric under swapping the clocks: the result
of A.Compare(B) is the negation of B.Compare(A) (so Less pairs with
Greater), and the underlying flags swap exactly, so the 0 verdict
arises from equal clocks on one side exactly when it does on the other
(Equal pairs with Equal) and from two-sided differences on one side
exactly when it does on the other (Concurrent pairs with Concurrent). -/
theorem compare_swap_consistent (a b : VectorClock)
    (ha : (akeys a).Nodup) (hb : (akeys b).Nodup) :
    VectorClock.Compare a b = -VectorClock.Compare b a ∧
    (lessFlagA a b || lessFlagB a b) = greaterFlag b a ∧
    greaterFlag a b = (lessFlagA b a || lessFlagB b a) := by
  have h1 := lessFlag_swap a b ha hb
  have h2 := lessFlag_swap b a hb ha
  refine ⟨?_, h1, h2.symm⟩
  rw [compare_def, compare_def, h1, ← h2]
  cases h3 : (lessFlagA b a || lessFlagB b a) <;> cases h4 : greaterFlag b a <;> simp

/-- C8 witness: the theorem applied to the concurrent clocks of the
spec scenario. -/
theorem compare_swap_consistent_witness :
    (akeys ([("n1", (2 : Int)), ("n2", 1)] : VectorClock)).Nodup ∧
    (akeys ([("n1", (1 : Int)), ("n2", 2)] : VectorClock)).Nodup ∧
    (VectorClock.Compare [("n1", (2 : Int)), ("n2", 1)] [("n1", (1 : Int)), ("n2", 2)] =
        -VectorClock.Compare [("n1", (1 : Int)), ("n2", 2)] [("n1", (2 : Int)), ("n2", 1)] ∧
      (lessFlagA [("n1", (2 : Int)), ("n2", 1)] [("n1", (1 : Int)), ("n2", 2)] ||
          lessFlagB [("n1", (2 : Int)), ("n2", 1)] [("n1", (1 : Int)), ("n2", 2)]) =
        greaterFlag [("n1", (1 : Int)), ("n2", 2)] [("n1", (2 : Int)), ("n2", 1)] ∧
      greaterFlag [("n1", (2 : Int)), ("n2", 1)] [("n1", (1 : Int)), ("n2", 2)] =
        (lessFlagA [("n1", (1 : Int)), ("n2", 2)] [("n1", (2 : Int)), ("n2", 1)] ||
          lessFlagB [("n1", (1 : Int)), ("n2", 2)] [("n1", (2 : Int)), ("n2", 1)])) :=
  ⟨by decide, by decide,
    compare_swap_consistent [("n1", (2 : Int)), ("n2", 1)] [("n1", (1 : Int)), ("n2", 2)]
      (by decide) (by decide)⟩

/-- C3 counterexample: the claim reads a missing entry as counter 0, so
for A holding n1 at 0 and B empty no entry differs and the claimed
result is Equal; the code instead treats the n1 entry of A as a strict
excess over B regardless of its counter and answers Greater (1). -/
theorem compare_missing_entry_counterexample :
    VectorClock.Compare [("n1", (0 : Int))] [] = 1 ∧
    specAnyLess [("n1", (0 : Int))] [] = false ∧
    specAnyGreater [("n1", (0 : Int))] [] = false ∧
    specCompare [("n1", (0 : Int))] [] = 0 := by decide

/-- C3 amended: for clocks with unique keys whose counters are all at
least one (as Increment and Merge produce), Compare answers exactly the
comparison the claim describes: -1 when only some entry is strictly
smaller (missing read as 0), 1 when only some entry is strictly larger,
and 0 when neither (Equal) or both (Concurrent). -/
theorem compare_matches_spec_positive (a b : VectorClock)
    (ha : (akeys a).Nodup) (hb : (akeys b).Nodup)
    (hpa : positiveClock a) (hpb : positiveClock b) :
    VectorClock.Compare a b = specCompare a b := by
  rw [compare_def, lessFlag_eq_spec a b ha hb hpa hpb,
    greaterFlag_eq_spec a b ha hb hpa hpb, specCompare]

/-- C3 witness: the concurrent spec scenario, all counters positive. -/
theorem compare_matches_spec_positive_witness :
    (akeys ([("n1", (2 : Int)), ("n2", 1)] : VectorClock)).Nodup ∧
    (akeys ([("n1", (1 : Int)), ("n2", 2)] : VectorClock)).Nodup ∧
    positiveClock [("n1", (2 : Int)), ("n2", 1)] ∧
    positiveClock [("n1", (1 : Int)), ("n2", 2)] ∧
    VectorClock.Compare [("n1", (2 : Int)), ("n2", 1)] [("n1", (1 : Int)), ("n2", 2)] =
      specCompare [("n1", (2 : Int)), ("n2", 1)] [("n1", (1 : Int)), ("n2", 2)] :=
  ⟨by decide, by decide, by decide, by decide,
    compare_matches_spec_positive [("n1", (2 : Int)), ("n2", 1)] [("n1", (1 : Int)), ("n2", 2)]
      (by decide) (by decide) (by decide) (by decide)⟩

/-- C9: on a nonempty ring whose hashes are sorted ascending (as AddNode
maintains) and whose hash function is the default SHA-1 projection,
GetNode returns the entry of the hash map at the smallest vnode hash at
least the key hash, wrapping to index 0 when every vnode hash is below
it. GetNode mutates nothing, so repeated calls on an unchanged ring
return the same node by definitional equality of the embedding. -/
theorem getNode_returns_successor (ch : ConsistentHashing) (key : String)
    (hne : ch.SortedHashes ≠ [])
    (hsort : List.Sorted (· ≤ ·) ch.SortedHashes)
    (hH : ch.HashFunction = defaultHashFunction) :
    (∃ x ∈ ch.SortedHashes, defaultHashFunction key ≤ x ∧
        (∀ y ∈ ch.SortedHashes, defaultHashFunction key ≤ y → x ≤ y) ∧
        GetNode ch key = alookup ch.HashMap x) ∨
      ((∀ y ∈ ch.SortedHashes, y < defaultHashFunction key) ∧
        GetNode ch key = alookup ch.HashMap (ch.SortedHashes.getD 0 0)) := by
  have hGet : GetNode ch key =
      (let hash := defaultHashFunction key
       let idx := sortSearch ch.SortedHashes.length
         fun i => decide (hash ≤ ch.SortedHashes.getD i 0)
       let idx2 := if idx = ch.SortedHashes.length then 0 else idx
       alookup ch.HashMap (ch.SortedHashes.getD idx2 0)) := by
    rw [GetNode, if_neg hne, hH]
  set hs := ch.SortedHashes with hhs
  set n := hs.length with hn
  set h := defaultHashFunction key with hdef
  set f : Nat → Bool := fun i => decide (h ≤ hs.getD i 0) with hf
  have hmono : ∀ i j, i ≤ j → j < n → f i = true → f j = true := by
    intro i j hij hj hi
    rw [hf] at hi ⊢
    simp only [decide_eq_true_eq] at hi ⊢
    exact le_trans hi (sorted_getD_mono hsort hij hj)
  obtain ⟨hle, hbelow, hat⟩ := sortSearch_spec n f hmono
  set r := sortSearch n f with hr
  rcases lt_or_eq_of_le hle with hlt | heq
  · left
    refine ⟨hs.getD r 0, ?_, ?_, ?_, ?_⟩
    · rw [List.getD_eq_getElem _ _ hlt]
      exact List.getElem_mem hlt
    · have := hat hlt
      rw [hf] at this
      simpa using this
    · intro y hy hhy
      obtain ⟨j, hj, rfl⟩ := List.mem_iff_getElem.mp hy
      by_cases hjr : j < r
      · have := hbelow j hjr
        rw [hf] at this
        simp only [decide_eq_false_iff_not, not_le] at this
        rw [List.getD_eq_getElem _ _ hj] at this
        omega
      · have := sorted_getD_mono hsort (le_of_not_lt hjr) hj
        rwa [List.getD_eq_getElem _ _ hj] at this
    · rw [hGet]
      simp only [← hhs, ← hdef, ← hf, ← hr, if_neg (Nat.ne_of_lt hlt)]
  · right
    constructor
    · intro y hy
      obtain ⟨j, hj, rfl⟩ := List.mem_iff_getElem.mp hy
      have := hbelow j (by omega)
      rw [hf] at this
      simp only [decide_eq_false_iff_not, not_le] at this
      rwa [List.getD_eq_getElem _ _ hj] at this
    · rw [hGet]
      simp only [← hhs, ← hdef, ← hf, ← hr, if_pos heq]

/-- C9 witness: the theorem applied to the concrete SHA-1 ring. -/
theorem getNode_returns_successor_witness :
    ringSha.SortedHashes ≠ [] ∧
    List.Sorted (· ≤ ·) ringSha.SortedHashes ∧
    ringSha.HashFunction = defaultHashFunction ∧
    ((∃ x ∈ ringSha.SortedHashes, defaultHashFunction "apple" ≤ x ∧
        (∀ y ∈ ringSha.SortedHashes, defaultHashFunction "apple" ≤ y → x ≤ y) ∧
        GetNode ringSha "apple" = alookup ringSha.HashMap x) ∨
      ((∀ y ∈ ringSha.SortedHashes, y < defaultHashFunction "apple") ∧
        GetNode ringSha "apple" = alookup ringSha.HashMap (ringSha.SortedHashes.getD 0 0))) :=
  ⟨by decide, by decide, rfl,
    getNode_returns_successor ringSha "apple" (by decide) (by decide) rfl⟩

/-
Store-level computation lemmas.
-/

theorem alookup_cons_self {α β : Type} [DecidableEq α] (k : α) (v : β) (rest : List (α × β)) :
    alookup ((k, v) :: rest) k = some v := by
  simp [alookup]

theorem ainsert_cons_self {α β : Type} [DecidableEq α] (k : α) (w v : β) (rest : List (α × β)) :
    ainsert ((k, w) :: rest) k v = (k, v) :: rest := by
  simp [ainsert]

theorem aerase_sublist {α β : Type} [DecidableEq α] (m : List (α × β)) (k : α) :
    List.Sublist (aerase m k) m := by
  induction m with
  | nil => simp [aerase]
  | cons p rest ih =>
    obtain ⟨k0, w⟩ := p
    by_cases h : k0 = k
    · simpa [aerase, h] using List.sublist_cons_self _ _
    · simpa [aerase, h] using ih.cons₂ (k0, w)

theorem nodup_akeys_aerase {α β : Type} [DecidableEq α] (m : List (α × β)) (k : α)
    (h : (akeys m).Nodup) : (akeys (aerase m k)).Nodup :=
  ((aerase_sublist m k).map Prod.fst).nodup h

theorem increment_singleton (self : String) (n : Int) :
    VectorClock.Increment [(self, n)] self = [(self, n + 1)] := by
  simp [VectorClock.Increment, alookup, ainsert]

theorem increment_nil (self : String) :
    VectorClock.Increment NewVectorClock self = [(self, 1)] := by
  simp [VectorClock.Increment, NewVectorClock, alookup, ainsert]

theorem Put_dead (g : Gossip) (ch : ConsistentHashing) (kv : KeyValueStore)
    (key value : String) (now : Nat) (vnode : Node)
    (hv : GetNode ch key = some vnode)
    (hdead : g.IsNodeAlive vnode.ID = false) :
    KeyValueStore.Put g ch kv key value now =
      some { kv with HintedData := ainsert kv.HintedData key ⟨key, value, vnode.ID, now⟩ } := by
  simp [KeyValueStore.Put, hv, hdead]

theorem writeDataToDisk_spec (kv : KeyValueStore) (key value : String)
    (hlen : key.length ≤ PageSize) :
    writeDataToDisk kv key value = some
      { kv with PageMgr := ⟨kv.PageMgr.NextPageID + 1,
          ainsert kv.PageMgr.Pages kv.PageMgr.NextPageID
            ((key.data ++ value.data ++ List.replicate PageSize (Char.ofNat 0)).take PageSize)⟩ } := by
  simp only [writeDataToDisk, if_neg (by omega : ¬ PageSize < key.length)]
  rfl

theorem Put_alive_fresh (g : Gossip) (ch : ConsistentHashing) (kv : KeyValueStore)
    (key value : String) (now : Nat) (vnode : Node)
    (hv : GetNode ch key = some vnode)
    (halive : g.IsNodeAlive vnode.ID = true)
    (habsent : alookup kv.Data key = none)
    (hlen : key.length ≤ PageSize) :
    KeyValueStore.Put g ch kv key value now = some
      { kv with
        Data := ainsert kv.Data key ⟨value, some [(g.Self.ID, 1)]⟩
        PageMgr := ⟨kv.PageMgr.NextPageID + 1,
          ainsert kv.PageMgr.Pages kv.PageMgr.NextPageID
            ((key.data ++ value.data ++ List.replicate PageSize (Char.ofNat 0)).take PageSize)⟩ } := by
  simp only [KeyValueStore.Put, hv, halive, Bool.not_true, Bool.false_eq_true, if_false, habsent]
  rw [increment_nil, writeDataToDisk_spec _ _ _ hlen]

theorem Put_alive_existing (g : Gossip) (ch : ConsistentHashing) (kv : KeyValueStore)
    (key value : String) (now : Nat) (vnode : Node) (item : DataItem) (vc : VectorClock)
    (hv : GetNode ch key = some vnode)
    (halive : g.IsNodeAlive vnode.ID = true)
    (hitem : alookup kv.Data key = some item)
    (hvc : item.VClock = some vc)
    (hlen : key.length ≤ PageSize) :
    KeyValueStore.Put g ch kv key value now = some
      { kv with
        Data := ainsert kv.Data key ⟨value, some (vc.Increment g.Self.ID)⟩
        PageMgr := ⟨kv.PageMgr.NextPageID + 1,
          ainsert kv.PageMgr.Pages kv.PageMgr.NextPageID
            ((key.data ++ value.data ++ List.replicate PageSize (Char.ofNat 0)).take PageSize)⟩ } := by
  simp only [KeyValueStore.Put, hv, halive, Bool.not_true, Bool.false_eq_true, if_false,
    hitem, hvc]
  rw [writeDataToDisk_spec _ _ _ hlen]

theorem Get_mem (g : Gossip) (ch : ConsistentHashing) (kv : KeyValueStore)
    (key : String) (vnode : Node) (item : DataItem)
    (hv : GetNode ch key = some vnode)
    (halive : g.IsNodeAlive vnode.ID = true)
    (hitem : alookup kv.Data key = some item) :
    KeyValueStore.Get g ch kv key = some (item.Value, item.VClock, true) := by
  simp only [KeyValueStore.Get, hv, halive, if_true, hitem]

/-
Hinted handoff drain: behaviour of the fold over the hint map.
-/

theorem handoffStep_frame (g : Gossip) (acc : KeyValueStore) (p : String × Hint)
    (k : String) (hk : p.1 ≠ k) :
    alookup (handoffStep g acc p).HintedData k = alookup acc.HintedData k ∧
    alookup (handoffStep g acc p).Data k = alookup acc.Data k := by
  unfold handoffStep
  by_cases halive : g.IsNodeAlive p.2.TargetID
  · simp only [if_pos halive]
    exact ⟨alookup_aerase_ne _ _ _ hk, alookup_ainsert_ne _ _ _ _ hk⟩
  · simp [if_neg halive]

theorem handoffStep_nodup (g : Gossip) (acc : KeyValueStore) (p : String × Hint)
    (h : (akeys acc.HintedData).Nodup) :
    (akeys (handoffStep g acc p).HintedData).Nodup := by
  unfold handoffStep
  by_cases halive : g.IsNodeAlive p.2.TargetID
  · simp only [if_pos halive]
    exact nodup_akeys_aerase _ _ h
  · simpa [if_neg halive] using h

theorem handoff_fold_frame (g : Gossip) (l : List (String × Hint)) :
    ∀ acc : KeyValueStore, ∀ k : String, k ∉ l.map Prod.fst →
    alookup (l.foldl (handoffStep g) acc).HintedData k = alookup acc.HintedData k ∧
    alookup (l.foldl (handoffStep g) acc).Data k = alookup acc.Data k := by
  induction l with
  | nil => exact fun acc k _ => ⟨rfl, rfl⟩
  | cons p rest ih =>
    intro acc k hk
    simp only [List.map_cons, List.mem_cons, not_or] at hk
    have hstep := handoffStep_frame g acc p k (fun he => hk.1 he.symm)
    have hrest := ih (handoffStep g acc p) k hk.2
    exact ⟨hrest.1.trans hstep.1, hrest.2.trans hstep.2⟩

theorem handoff_fold_main (g : Gossip) (l : List (String × Hint)) :
    ∀ acc : KeyValueStore, (l.map Prod.fst).Nodup → (akeys acc.HintedData).Nodup →
    ∀ k h, alookup l k = some h →
      (g.IsNodeAlive h.TargetID = true →
        alookup (l.foldl (handoffStep g) acc).HintedData k = none ∧
        alookup (l.foldl (handoffStep g) acc).Data k = some ⟨h.Value, none⟩) ∧
      (g.IsNodeAlive h.TargetID = false →
        alookup (l.foldl (handoffStep g) acc).HintedData k = alookup acc.HintedData k ∧
        alookup (l.foldl (handoffStep g) acc).Data k = alookup acc.Data k) := by
  induction l with
  | nil =>
    intro acc _ _ k h hl
    cases hl
  | cons p rest ih =>
    intro acc hnd hndacc k h hl
    obtain ⟨k0, h0⟩ := p
    simp only [List.map_cons, List.nodup_cons] at hnd
    simp only [List.foldl_cons]
    by_cases hk : k0 = k
    · subst hk
      rw [alookup_cons_self] at hl
      injection hl with hh
      subst hh
      have hframe := handoff_fold_frame g rest (handoffStep g acc (k0, h0)) k0 hnd.1
      constructor
      · intro halive
        rw [hframe.1, hframe.2]
        unfold handoffStep
        simp only [if_pos halive]
        exact ⟨alookup_aerase_self _ _ hndacc, alookup_ainsert_self _ _ _⟩
      · intro hdead
        rw [hframe.1, hframe.2]
        unfold handoffStep
        simp only [hdead]
        exact ⟨rfl, rfl⟩
    · simp only [alookup, if_neg hk] at hl
      have hstep := handoffStep_frame g acc (k0, h0) k hk
      have := ih (handoffStep g acc (k0, h0)) hnd.2 (handoffStep_nodup g acc (k0, h0) hndacc) k h hl
      refine ⟨this.1, fun hdead => ?_⟩
      obtain ⟨h1, h2⟩ := this.2 hdead
      exact ⟨h1.trans hstep.1, h2.trans hstep.2⟩

/-- C2 counterexample: with peer n2 alive and one hint for key k
targeted at n2, the drainer removes the hint and replays the value into
Data, but the replayed item carries no vector clock at all (the clock
pointer is left nil), where the claim requires a fresh clock with the
self entry incremented. -/
theorem handoff_replay_no_clock_counterexample :
    Gossip.IsNodeAlive gossipN1 "n2" = true ∧
    (processHintedHandoff gossipN1 kvHintK).HintedData = [] ∧
    alookup (processHintedHandoff gossipN1 kvHintK).Data "k" = some ⟨"v", none⟩ ∧
    (⟨"v", none⟩ : DataItem).VClock = none ∧
    (⟨"v", none⟩ : DataItem).VClock ≠ some (VectorClock.Increment NewVectorClock "n1") := by
  decide

/-- C2 amended: when the drainer runs on a hint map with unique keys,
every hint whose target is alive is removed from the hinted map and its
write replayed into Data as a fresh insertion whose clock pointer is
nil (not a fresh incremented clock, as the claim says), while hints for
dead targets are left in place and their keys in Data untouched. -/
theorem processHintedHandoff_drains (g : Gossip) (kv : KeyValueStore)
    (hnd : (akeys kv.HintedData).Nodup)
    (k : String) (h : Hint)
    (hl : alookup kv.HintedData k = some h) :
    (g.IsNodeAlive h.TargetID = true →
      alookup (processHintedHandoff g kv).HintedData k = none ∧
      alookup (processHintedHandoff g kv).Data k = some ⟨h.Value, none⟩) ∧
    (g.IsNodeAlive h.TargetID = false →
      alookup (processHintedHandoff g kv).HintedData k = some h ∧
      alookup (processHintedHandoff g kv).Data k = alookup kv.Data k) := by
  have hmain := handoff_fold_main g kv.HintedData kv hnd hnd k h hl
  refine ⟨hmain.1, fun hdead => ?_⟩
  obtain ⟨h1, h2⟩ := hmain.2 hdead
  exact ⟨h1.trans hl, h2⟩

/-- C2 witness: the amended theorem applied to the alive-target state;
the hint disappears and the value lands in Data with a nil clock. -/
theorem processHintedHandoff_drains_witness :
    (akeys kvHintK.HintedData).Nodup ∧
    alookup kvHintK.HintedData "k" = some ⟨"k", "v", "n2", 5⟩ ∧
    Gossip.IsNodeAlive gossipN1 "n2" = true ∧
    alookup (processHintedHandoff gossipN1 kvHintK).HintedData "k" = none ∧
    alookup (processHintedHandoff gossipN1 kvHintK).Data "k" = some ⟨"v", none⟩ :=
  ⟨by decide, by decide, by decide,
    ((processHintedHandoff_drains gossipN1 kvHintK (by decide) "k" ⟨"k", "v", "n2", 5⟩
      (by decide)).1 (by decide)).1,
    ((processHintedHandoff_drains gossipN1 kvHintK (by decide) "k" ⟨"k", "v", "n2", 5⟩
      (by decide)).1 (by decide)).2⟩

/-- C1 counterexample: the store holds x at value 1 with clock n1 at 1;
an incoming write of value 2 with clock n2 at 1 is concurrent with it
(each side has an entry the other lacks, so the comparison is 0 and, in
the spec flags, both a less and a greater difference exist). The claim
requires the merged value joined with a separator bar, the merged clock,
and a persisted result; ResolveConflicts instead leaves the store
completely unchanged. -/
theorem resolveConflicts_conflict_counterexample :
    VectorClock.Compare [("n1", (1 : Int))] [("n2", 1)] = 0 ∧
    specAnyLess [("n1", (1 : Int))] [("n2", 1)] = true ∧
    specAnyGreater [("n1", (1 : Int))] [("n2", 1)] = true ∧
    KeyValueStore.ResolveConflicts kvX1 "x" "2" [("n2", 1)] = some kvX1 ∧
    alookup kvX1.Data "x" = some ⟨"1", some [("n1", 1)]⟩ ∧
    ¬("1" = "1 | 2" ∨ "1" = "2 | 1") ∧
    kvX1.PageMgr.Pages = [] := by
  decide

/-- C1 amended: whenever the key is present and the comparison of the
local clock with the incoming clock returns 0 (the conflict answer,
covering both Concurrent and Equal), ResolveConflicts leaves the store
unchanged: no value join, no clock merge, and nothing written to the
page manager. -/
theorem resolveConflicts_conflict_noop (kv : KeyValueStore) (key newValue : String)
    (newVectorClock : VectorClock) (item : DataItem) (vc : VectorClock)
    (hitem : alookup kv.Data key = some item)
    (hvc : item.VClock = some vc)
    (hcmp : VectorClock.Compare vc newVectorClock = 0) :
    KeyValueStore.ResolveConflicts kv key newValue newVectorClock = some kv := by
  simp [KeyValueStore.ResolveConflicts, hitem, hvc, hcmp]

/-- C1 witness: the amended theorem applied to the concurrent scenario
of the spec. -/
theorem resolveConflicts_conflict_noop_witness :
    alookup kvX1.Data "x" = some ⟨"1", some [("n1", 1)]⟩ ∧
    (⟨"1", some [("n1", (1 : Int))]⟩ : DataItem).VClock = some [("n1", 1)] ∧
    VectorClock.Compare [("n1", (1 : Int))] [("n2", 1)] = 0 ∧
    KeyValueStore.ResolveConflicts kvX1 "x" "2" [("n2", 1)] = some kvX1 :=
  ⟨by decide, rfl, by decide,
    resolveConflicts_conflict_noop kvX1 "x" "2" [("n2", 1)] ⟨"1", some [("n1", 1)]⟩
      [("n1", 1)] (by decide) rfl (by decide)⟩

/-- C4 counterexample: a put of key k1 and value v1 to an alive target
writes a fresh page whose first bytes are the key immediately followed
by the value and zero padding; the claim predicts the record string
key, colon, value, newline at the used offset, which differs already at
the third byte. -/
theorem put_disk_format_counterexample :
    Gossip.IsNodeAlive gossipN1 "n2" = true ∧
    GetNode ringToN2 "k1" = some nodeN2 ∧
    (KeyValueStore.Put gossipN1 ringToN2 kvEmpty "k1" "v1" 0).map
        (fun s => (alookup s.PageMgr.Pages 0).map (fun buf => buf.take 6)) =
      some (some ("k1v1".data ++ [Char.ofNat 0, Char.ofNat 0])) ∧
    ("k1v1".data ++ [Char.ofNat 0, Char.ofNat 0]) ≠ "k1:v1\n".data := by
  decide

/-- C4 amended: every put whose ring target is alive (and whose key fits
a page, and whose stored clock pointer is not nil, where Go would panic)
persists by allocating a fresh page, advancing the page counter, and
flushing a buffer holding the key immediately followed by the value and
zero padding; there is no colon-newline record format, no used offset,
and no flush-on-overflow, which live only in the never-called
writeToPage helper. -/
theorem put_alive_persists (g : Gossip) (ch : ConsistentHashing) (kv : KeyValueStore)
    (key value : String) (now : Nat) (vnode : Node)
    (hv : GetNode ch key = some vnode)
    (halive : g.IsNodeAlive vnode.ID = true)
    (hlen : key.length ≤ PageSize)
    (hclock : ∀ item, alookup kv.Data key = some item → item.VClock ≠ none) :
    ∃ kv2, KeyValueStore.Put g ch kv key value now = some kv2 ∧
      kv2.PageMgr.NextPageID = kv.PageMgr.NextPageID + 1 ∧
      alookup kv2.PageMgr.Pages kv.PageMgr.NextPageID =
        some ((key.data ++ value.data ++ List.replicate PageSize (Char.ofNat 0)).take PageSize) ∧
      kv2.HintedData = kv.HintedData := by
  cases hd : alookup kv.Data key with
  | none =>
    exact ⟨_, Put_alive_fresh g ch kv key value now vnode hv halive hd hlen, rfl,
      alookup_ainsert_self _ _ _, rfl⟩
  | some item =>
    cases hvc : item.VClock with
    | none => exact absurd hvc (hclock item hd)
    | some vc =>
      exact ⟨_, Put_alive_existing g ch kv key value now vnode item vc hv halive hd hvc hlen,
        rfl, alookup_ainsert_self _ _ _, rfl⟩

/-- C4 witness: the amended theorem applied to the concrete alive-target
put of the counterexample. -/
theorem put_alive_persists_witness :
    GetNode ringToN2 "k1" = some nodeN2 ∧
    Gossip.IsNodeAlive gossipN1 nodeN2.ID = true ∧
    "k1".length ≤ PageSize ∧
    (∃ kv2, KeyValueStore.Put gossipN1 ringToN2 kvEmpty "k1" "v1" 0 = some kv2 ∧
      kv2.PageMgr.NextPageID = kvEmpty.PageMgr.NextPageID + 1 ∧
      alookup kv2.PageMgr.Pages kvEmpty.PageMgr.NextPageID =
        some (("k1".data ++ "v1".data ++ List.replicate PageSize (Char.ofNat 0)).take PageSize) ∧
      kv2.HintedData = kvEmpty.HintedData) :=
  ⟨by decide, by decide, by decide,
    put_alive_persists gossipN1 ringToN2 kvEmpty "k1" "v1" 0 nodeN2 (by decide) (by decide)
      (by decide) (fun item h => by simp [kvEmpty, alookup] at h)⟩

/-- C5: a put whose ring target is not alive inserts or overwrites the
hint for its key (with the key, the value, the target id and the call
time) and returns, leaving the data map and the page manager untouched;
a second hinted put of the same key replaces the pending hint, because
the hint map is keyed by key. -/
theorem put_dead_target_hints (g : Gossip) (ch : ConsistentHashing) (kv : KeyValueStore)
    (key v1 v2 : String) (t1 t2 : Nat) (vnode : Node)
    (hv : GetNode ch key = some vnode)
    (hdead : g.IsNodeAlive vnode.ID = false) :
    KeyValueStore.Put g ch kv key v1 t1 =
      some { kv with HintedData := ainsert kv.HintedData key ⟨key, v1, vnode.ID, t1⟩ } ∧
    ({ kv with HintedData := ainsert kv.HintedData key ⟨key, v1, vnode.ID, t1⟩ } : KeyValueStore).Data
      = kv.Data ∧
    ({ kv with HintedData := ainsert kv.HintedData key ⟨key, v1, vnode.ID, t1⟩ } : KeyValueStore).PageMgr
      = kv.PageMgr ∧
    KeyValueStore.Put g ch
        { kv with HintedData := ainsert kv.HintedData key ⟨key, v1, vnode.ID, t1⟩ } key v2 t2 =
      some { kv with HintedData := ainsert (ainsert kv.HintedData key ⟨key, v1, vnode.ID, t1⟩) key ⟨key, v2, vnode.ID, t2⟩ } ∧
    alookup (ainsert (ainsert kv.HintedData key ⟨key, v1, vnode.ID, t1⟩) key ⟨key, v2, vnode.ID, t2⟩)
        key = some ⟨key, v2, vnode.ID, t2⟩ :=
  ⟨Put_dead g ch kv key v1 t1 vnode hv hdead, rfl, rfl,
    Put_dead g ch _ key v2 t2 vnode hv hdead, alookup_ainsert_self _ _ _⟩

/-- C5 witness: a gossip view with an empty peer table, so the ring
target n2 is not alive; two puts of the same key hint it twice, the
second replacing the first. -/
theorem put_dead_target_hints_witness :
    GetNode ringToN2 "k" = some nodeN2 ∧
    Gossip.IsNodeAlive (NewGossip "n1" "localhost:8081") nodeN2.ID = false ∧
    (KeyValueStore.Put (NewGossip "n1" "localhost:8081") ringToN2 kvEmpty "k" "a" 1 =
      some { kvEmpty with HintedData := ainsert kvEmpty.HintedData "k" ⟨"k", "a", nodeN2.ID, 1⟩ } ∧
    ({ kvEmpty with HintedData := ainsert kvEmpty.HintedData "k" ⟨"k", "a", nodeN2.ID, 1⟩ } : KeyValueStore).Data
      = kvEmpty.Data ∧
    ({ kvEmpty with HintedData := ainsert kvEmpty.HintedData "k" ⟨"k", "a", nodeN2.ID, 1⟩ } : KeyValueStore).PageMgr
      = kvEmpty.PageMgr ∧
    KeyValueStore.Put (NewGossip "n1" "localhost:8081") ringToN2
        { kvEmpty with HintedData := ainsert kvEmpty.HintedData "k" ⟨"k", "a", nodeN2.ID, 1⟩ } "k" "b" 2 =
      some { kvEmpty with HintedData := ainsert (ainsert kvEmpty.HintedData "k" ⟨"k", "a", nodeN2.ID, 1⟩) "k" ⟨"k", "b", nodeN2.ID, 2⟩ } ∧
    alookup (ainsert (ainsert kvEmpty.HintedData "k" ⟨"k", "a", nodeN2.ID, 1⟩) "k" ⟨"k", "b", nodeN2.ID, 2⟩)
        "k" = some ⟨"k", "b", nodeN2.ID, 2⟩) :=
  ⟨by decide, by decide,
    put_dead_target_hints (NewGossip "n1" "localhost:8081") ringToN2 kvEmpty "k" "a" "b" 1 2
      nodeN2 (by decide) (by decide)⟩

/-- C6: on a store where the key is absent, its ring target alive, and
the key fits a page, two puts of the same value followed by a get
return the value with found true and a clock whose entry for the self
node is exactly two: the first put creates the clock at one, the second
increments it. -/
theorem put_twice_get_clock_two (g : Gossip) (ch : ConsistentHashing) (kv : KeyValueStore)
    (key value : String) (now now2 : Nat) (vnode : Node)
    (hv : GetNode ch key = some vnode)
    (halive : g.IsNodeAlive vnode.ID = true)
    (habsent : alookup kv.Data key = none)
    (hlen : key.length ≤ PageSize) :
    ∃ kv1 kv2,
      KeyValueStore.Put g ch kv key value now = some kv1 ∧
      KeyValueStore.Put g ch kv1 key value now2 = some kv2 ∧
      KeyValueStore.Get g ch kv2 key = some (value, some [(g.Self.ID, 2)], true) ∧
      alookup [(g.Self.ID, (2 : Int))] g.Self.ID = some 2 := by
  have h1 := Put_alive_fresh g ch kv key value now vnode hv halive habsent hlen
  have hinc : VectorClock.Increment [(g.Self.ID, (1 : Int))] g.Self.ID = [(g.Self.ID, 2)] := by
    rw [increment_singleton]
    norm_num
  have h2 := Put_alive_existing g ch
    { kv with
      Data := ainsert kv.Data key ⟨value, some [(g.Self.ID, 1)]⟩
      PageMgr := ⟨kv.PageMgr.NextPageID + 1,
        ainsert kv.PageMgr.Pages kv.PageMgr.NextPageID
          ((key.data ++ value.data ++ List.replicate PageSize (Char.ofNat 0)).take PageSize)⟩ }
    key value now2 vnode ⟨value, some [(g.Self.ID, 1)]⟩ [(g.Self.ID, 1)]
    hv halive (alookup_ainsert_self _ _ _) rfl hlen
  rw [hinc] at h2
  refine ⟨_, _, h1, h2, ?_, alookup_cons_self _ _ _⟩
  exact Get_mem g ch _ key vnode ⟨value, some [(g.Self.ID, 2)]⟩ hv halive
    (alookup_ainsert_self _ _ _)

/-- C6 witness: the theorem applied to the empty store with alive
target n2. -/
theorem put_twice_get_clock_two_witness :
    GetNode ringToN2 "k" = some nodeN2 ∧
    Gossip.IsNodeAlive gossipN1 nodeN2.ID = true ∧
    alookup kvEmpty.Data "k" = none ∧
    "k".length ≤ PageSize ∧
    (∃ kv1 kv2,
      KeyValueStore.Put gossipN1 ringToN2 kvEmpty "k" "v" 1 = some kv1 ∧
      KeyValueStore.Put gossipN1 ringToN2 kv1 "k" "v" 2 = some kv2 ∧
      KeyValueStore.Get gossipN1 ringToN2 kv2 "k" =
        some ("v", some [(gossipN1.Self.ID, 2)], true) ∧
      alookup [(gossipN1.Self.ID, (2 : Int))] gossipN1.Self.ID = some 2) :=
  ⟨by decide, by decide, by decide, by decide,
    put_twice_get_clock_two gossipN1 ringToN2 kvEmpty "k" "v" 1 2 nodeN2
      (by decide) (by decide) (by decide) (by decide)⟩

/-- C10: NewGossip creates an empty peer map without inserting the self
node, so IsNodeAlive answers false for the self id on a fresh instance
(as it does for any id absent from the peer map); consequently, on any
gossip state whose peer map lacks the self id, a put whose ring target
carries the self id is diverted to the hinted map, leaving the data map
and page manager unchanged. -/
theorem newGossip_self_not_peer_put_diverted (selfID address : String)
    (g : Gossip) (ch : ConsistentHashing) (kv : KeyValueStore)
    (key value : String) (now : Nat) (vnode : Node)
    (hself : alookup g.Nodes g.Self.ID = none)
    (hv : GetNode ch key = some vnode)
    (hid : vnode.ID = g.Self.ID) :
    (NewGossip selfID address).Nodes = [] ∧
    Gossip.IsNodeAlive (NewGossip selfID address) selfID = false ∧
    Gossip.IsNodeAlive g vnode.ID = false ∧
    KeyValueStore.Put g ch kv key value now =
      some { kv with HintedData := ainsert kv.HintedData key ⟨key, value, vnode.ID, now⟩ } := by
  have hdead : Gossip.IsNodeAlive g vnode.ID = false := by
    simp only [Gossip.IsNodeAlive, hid, hself]
  exact ⟨rfl, rfl, hdead, Put_dead g ch kv key value now vnode hv hdead⟩

/-- C10 witness: a fresh gossip instance for n1 and a ring owned by n1
itself; the put is diverted to the hinted map. -/
theorem newGossip_self_not_peer_put_diverted_witness :
    alookup (NewGossip "n1" "localhost:8081").Nodes (NewGossip "n1" "localhost:8081").Self.ID = none ∧
    GetNode ringToN1 "k" = some nodeN1 ∧
    nodeN1.ID = (NewGossip "n1" "localhost:8081").Self.ID ∧
    ((NewGossip "n1" "localhost:8081").Nodes = [] ∧
    Gossip.IsNodeAlive (NewGossip "n1" "localhost:8081") "n1" = false ∧
    Gossip.IsNodeAlive (NewGossip "n1" "localhost:8081") nodeN1.ID = false ∧
    KeyValueStore.Put (NewGossip "n1" "localhost:8081") ringToN1 kvEmpty "k" "v" 0 =
      some { kvEmpty with HintedData := ainsert kvEmpty.HintedData "k" ⟨"k", "v", nodeN1.ID, 0⟩ }) :=
  ⟨by decide, by decide, rfl,
    newGossip_self_not_peer_put_diverted "n1" "localhost:8081"
      (NewGossip "n1" "localhost:8081") ringToN1 kvEmpty "k" "v" 0 nodeN1
      (by decide) (by decide) rfl⟩

end KVG
